import Mathlib

/-!
Verification of the frame allocator (`src/os4-ref/src/mm/frame_allocator.rs`)
and the application loader (`src/os3multiprog/src/loader.rs`) of this
repository, against its natural-language specification.

Machine integers (`usize`) are modelled as `Nat`: the allocator only
increments `current` while `current < end`, and addresses stay far below
`2^64`, so no wrap-around is reachable in the modelled behaviours.
A Rust `panic!` is modelled as `Option.none`; the Rust `Option` return of
`alloc` is modelled as a Lean `Option` inside the (total) result pair.
-/

namespace FrameAlloc

/-- Embedding of `StackFrameAllocator`: fields `current`, `end` (named
`end_` since `end` is a Lean keyword) and `recycled`.  The Rust
`Vec<usize>` is a `List Nat` in the same order: `Vec::push` appends at the
back, `Vec::pop` removes from the back. -/
structure StackFrameAllocator where
  current : Nat
  end_ : Nat
  recycled : List Nat
deriving Repr, DecidableEq

/-- Embedding of `StackFrameAllocator::new`: all fields zero / empty. -/
def new : StackFrameAllocator := { current := 0, end_ := 0, recycled := [] }

/-- Embedding of `StackFrameAllocator::init(l, r)`: assigns `current = l`
and `end = r`, touching nothing else. -/
def init (s : StackFrameAllocator) (l r : Nat) : StackFrameAllocator :=
  { s with current := l, end_ := r }

/-- Embedding of `StackFrameAllocator::alloc`.  `self.recycled.pop()`
removes and returns the last element of the vector when non-empty
(`List.getLast?` / `List.dropLast`); otherwise, if `current == end` the
pool is exhausted and the result is `none`, else `current` is advanced and
the old `current` is returned. -/
def alloc (s : StackFrameAllocator) : Option Nat × StackFrameAllocator :=
  match s.recycled.getLast? with
  | some ppn => (some ppn, { s with recycled := s.recycled.dropLast })
  | none =>
    if s.current = s.end_ then
      (none, s)
    else
      (some s.current, { s with current := s.current + 1 })

/-- Embedding of `StackFrameAllocator::dealloc`.  The validity check
`ppn >= self.current || self.recycled.iter().any(|v| *v == ppn)` leads to
`panic!`, modelled as `none`; otherwise `ppn` is pushed onto `recycled`
(appended at the back of the vector). -/
def dealloc (s : StackFrameAllocator) (ppn : Nat) : Option StackFrameAllocator :=
  if s.current ≤ ppn ∨ ppn ∈ s.recycled then
    none
  else
    some { s with recycled := s.recycled ++ [ppn] }

/-- Case analysis of `alloc`, following the three branches of the source. -/
theorem alloc_cases (s : StackFrameAllocator) :
    (∃ R a, s.recycled = R ++ [a] ∧
      alloc s = (some a, { s with recycled := R })) ∨
    (s.recycled = [] ∧ s.current = s.end_ ∧ alloc s = (none, s)) ∨
    (s.recycled = [] ∧ s.current ≠ s.end_ ∧
      alloc s = (some s.current, { s with current := s.current + 1 })) := by
  rcases List.eq_nil_or_concat s.recycled with h | ⟨R, a, hc⟩
  on_goal 2 => have h : s.recycled = R ++ [a] := by simpa using hc
  · by_cases hce : s.current = s.end_
    · refine Or.inr (Or.inl ⟨h, hce, ?_⟩)
      simp [alloc, h, hce]
    · refine Or.inr (Or.inr ⟨h, hce, ?_⟩)
      simp [alloc, h, hce]
  · refine Or.inl ⟨R, a, h, ?_⟩
    simp [alloc, h]

end FrameAlloc

namespace FrameAlloc

/-- C10: `init` only writes `current` and `end`; `recycled` is untouched. -/
theorem init_frame_effect (s : StackFrameAllocator) (l r : Nat) :
    init s l r = { current := l, end_ := r, recycled := s.recycled } ∧
    (init s l r).recycled = s.recycled := by
  constructor <;> rfl

/-- C3: `dealloc s ppn` panics (returns `none`) iff `ppn ≥ current` or
`ppn` is already in `recycled`; otherwise it succeeds and the only change
is that `ppn` is appended to `recycled`. -/
theorem dealloc_spec (s : StackFrameAllocator) (ppn : Nat) :
    (dealloc s ppn = none ↔ s.current ≤ ppn ∨ ppn ∈ s.recycled) ∧
    (¬(s.current ≤ ppn ∨ ppn ∈ s.recycled) →
      dealloc s ppn = some { s with recycled := s.recycled ++ [ppn] }) := by
  constructor
  · constructor
    · intro h
      by_contra hc
      simp [dealloc, hc] at h
    · intro h
      simp [dealloc, h]
  · intro h
    simp [dealloc, h]

/-- Witness for C3 at concrete inputs: `dealloc ⟨3, 5, [1]⟩ 2` succeeds
and appends, while the panic condition is indeed absent there. -/
theorem dealloc_spec_witness :
    ((dealloc { current := 3, end_ := 5, recycled := [1] } 2 = none ↔
        (3 : Nat) ≤ 2 ∨ 2 ∈ [1]) ∧
      (¬((3 : Nat) ≤ 2 ∨ 2 ∈ [1]) →
        dealloc { current := 3, end_ := 5, recycled := [1] } 2 =
          some { current := 3, end_ := 5, recycled := [1, 2] })) :=
  dealloc_spec { current := 3, end_ := 5, recycled := [1] } 2

/-- C4: `alloc` returns the empty result exactly when the pool is
exhausted, i.e. `recycled` is empty and `current = end`; in every other
state it returns `some` free frame.  `alloc` is a total function on
states: the exhausted case is reported as `none`, never as a panic
(contrast `dealloc`, whose result type is `Option` state). -/
theorem alloc_exhaustion (s : StackFrameAllocator) :
    ((alloc s).1 = none ↔ s.recycled = [] ∧ s.current = s.end_) ∧
    ((alloc s).1.isSome ↔ ¬(s.recycled = [] ∧ s.current = s.end_)) := by
  have h := alloc_cases s
  rcases h with ⟨R, a, hR, hE⟩ | ⟨hR, hce, hE⟩ | ⟨hR, hce, hE⟩
  · constructor
    · simp [hE, hR]
    · simp [hE, hR]
  · constructor
    · simp [hE, hR, hce]
    · simp [hE, hR, hce]
  · constructor
    · simp [hE, hR, hce]
    · simp [hE, hR, hce]

end FrameAlloc

namespace FrameAlloc

/-- Operations a client can perform on the allocator: `frame_alloc`
(creating a `FrameTracker` on success) and `frame_dealloc ppn` (invoked by
`FrameTracker::drop`). -/
inductive FrameOp where
  | alloc : FrameOp
  | dealloc : Nat → FrameOp
deriving Repr, DecidableEq

/-- One step of a client interaction.  The allocator state is paired with
the ghost list `live` of page numbers currently held by `FrameTracker`s:
a successful `alloc` hands out a tracker (append), `dealloc` is called
when a tracker is dropped (remove).  A panicking `dealloc` yields `none`. -/
def step (st : StackFrameAllocator × List Nat) (op : FrameOp) :
    Option (StackFrameAllocator × List Nat) :=
  match op with
  | .alloc =>
    match alloc st.1 with
    | (some p, s2) => some (s2, st.2 ++ [p])
    | (none, s2) => some (s2, st.2)
  | .dealloc p =>
    match dealloc st.1 p with
    | some s2 => some (s2, st.2.erase p)
    | none => none

/-- Run a sequence of allocator operations; `none` once any step panics. -/
def runTrace (st : StackFrameAllocator × List Nat) (ops : List FrameOp) :
    Option (StackFrameAllocator × List Nat) :=
  match ops with
  | [] => some st
  | op :: rest =>
    match step st op with
    | some st2 => runTrace st2 rest
    | none => none

/-- Internal invariant tying the allocator state to the ghost live list. -/
def InvGhost (s : StackFrameAllocator) (live : List Nat) : Prop :=
  s.current ≤ s.end_ ∧ (∀ x ∈ s.recycled, x < s.current) ∧
  s.recycled.Nodup ∧ live.Nodup ∧
  ∀ x ∈ live, x < s.current ∧ x ∉ s.recycled

theorem invGhost_step {s : StackFrameAllocator} {live : List Nat}
    {op : FrameOp} {s2 : StackFrameAllocator} {live2 : List Nat}
    (hI : InvGhost s live) (h : step (s, live) op = some (s2, live2)) :
    InvGhost s2 live2 := by
  obtain ⟨h1, h2, h3, h4, h5⟩ := hI
  cases op with
  | alloc =>
    rcases alloc_cases s with ⟨R, a, hR, hE⟩ | ⟨hR, hce, hE⟩ | ⟨hR, hce, hE⟩
    · simp only [step, hE, Option.some.injEq, Prod.mk.injEq] at h
      obtain ⟨hs2, hl2⟩ := h
      subst hs2; subst hl2
      rw [hR] at h2 h3
      rw [List.nodup_append] at h3
      obtain ⟨hRnd, -, hdisj⟩ := h3
      have haR : a ∉ R := fun hmem => hdisj hmem (by simp)
      have harec : a ∈ s.recycled := by rw [hR]; simp
      refine ⟨h1, ?_, hRnd, ?_, ?_⟩
      · intro x hx
        exact h2 x (by simp [hx])
      · rw [List.nodup_append]
        refine ⟨h4, by simp, ?_⟩
        intro x hx hxa
        simp at hxa
        subst hxa
        exact (h5 x hx).2 harec
      · intro x hx
        rcases List.mem_append.mp hx with hx | hx
        · obtain ⟨hlt, hnr⟩ := h5 x hx
          exact ⟨hlt, fun hc => hnr (by rw [hR]; simp [hc])⟩
        · simp at hx
          subst hx
          exact ⟨h2 x (by simp), haR⟩
    · simp only [step, hE, Option.some.injEq, Prod.mk.injEq] at h
      obtain ⟨hs2, hl2⟩ := h
      subst hs2; subst hl2
      exact ⟨h1, h2, h3, h4, h5⟩
    · simp only [step, hE, Option.some.injEq, Prod.mk.injEq] at h
      obtain ⟨hs2, hl2⟩ := h
      subst hs2; subst hl2
      have hlt : s.current < s.end_ := lt_of_le_of_ne h1 hce
      refine ⟨hlt, ?_, ?_, ?_, ?_⟩
      · intro x hx
        exact Nat.lt_succ_of_lt (h2 x hx)
      · exact h3
      · rw [List.nodup_append]
        refine ⟨h4, by simp, ?_⟩
        intro x hx hxc
        simp at hxc
        subst hxc
        exact absurd (h5 _ hx).1 (lt_irrefl _)
      · intro x hx
        rcases List.mem_append.mp hx with hx | hx
        · obtain ⟨hl, hnr⟩ := h5 x hx
          exact ⟨Nat.lt_succ_of_lt hl, hnr⟩
        · simp at hx
          subst hx
          rw [hR]
          exact ⟨Nat.lt_succ_self _, by simp⟩
  | dealloc p =>
    rcases hd : dealloc s p with - | s3
    · simp [step, hd] at h
    · have hOk : ¬(s.current ≤ p ∨ p ∈ s.recycled) := by
        intro hc
        rw [(dealloc_spec s p).1.mpr hc] at hd
        exact Option.noConfusion hd
      push_neg at hOk
      obtain ⟨hp1, hp2⟩ := hOk
      have hs3 : s3 = { s with recycled := s.recycled ++ [p] } := by
        have := (dealloc_spec s p).2 (by push_neg; exact ⟨hp1, hp2⟩)
        rw [hd] at this
        exact (Option.some.injEq _ _).mp this.symm |>.symm
      subst hs3
      simp only [step, hd, Option.some.injEq, Prod.mk.injEq] at h
      obtain ⟨hs2, hl2⟩ := h
      subst hs2; subst hl2
      refine ⟨h1, ?_, ?_, h4.erase p, ?_⟩
      · intro x hx
        rcases List.mem_append.mp hx with hx | hx
        · exact h2 x hx
        · simp at hx
          subst hx
          exact hp1
      · rw [List.nodup_append]
        refine ⟨h3, by simp, ?_⟩
        intro x hx hxp
        simp at hxp
        subst hxp
        exact hp2 hx
      · intro x hx
        obtain ⟨hxp, hxl⟩ := (List.Nodup.mem_erase_iff h4).mp hx
        obtain ⟨hlt, hnr⟩ := h5 x hxl
        refine ⟨hlt, ?_⟩
        intro hc
        rcases List.mem_append.mp hc with hc | hc
        · exact hnr hc
        · simp at hc
          exact hxp hc

theorem invGhost_runTrace {ops : List FrameOp}
    {st : StackFrameAllocator × List Nat}
    {s2 : StackFrameAllocator} {live2 : List Nat}
    (hI : InvGhost st.1 st.2) (h : runTrace st ops = some (s2, live2)) :
    InvGhost s2 live2 := by
  induction ops generalizing st with
  | nil =>
    simp only [runTrace, Option.some.injEq] at h
    subst h
    exact hI
  | cons op rest ih =>
    rcases hs : step st op with - | st2
    · simp [runTrace, hs] at h
    · have hI2 : InvGhost st2.1 st2.2 :=
        @invGhost_step st.1 st.2 op st2.1 st2.2 hI (by rw [← hs])
      simp only [runTrace, hs] at h
      exact ih hI2 h

end FrameAlloc

namespace FrameAlloc

/-- The allocator state invariant of the specification, together with the
no-double-allocation property: `current ≤ end`, every index in `recycled`
is below `current` and appears at most once, no two live trackers hold the
same frame (`live.Nodup`), and `alloc` never returns a frame that is
currently live. -/
def AllocatorOK (s : StackFrameAllocator) (live : List Nat) : Prop :=
  s.current ≤ s.end_ ∧ (∀ x ∈ s.recycled, x < s.current) ∧
  s.recycled.Nodup ∧ live.Nodup ∧
  ∀ p s2, alloc s = (some p, s2) → p ∉ live

/-- C1: along every sequence of alloc/dealloc calls from an allocator set
up by `new` followed by `init l r` (with `l ≤ r`), the state invariant
holds: `current ≤ end`, entries of `recycled` are below `current` and
pairwise distinct, `alloc` never returns a live frame, and the live
trackers reference pairwise distinct frames. -/
theorem frameAllocator_invariant (l r : Nat) (hlr : l ≤ r)
    (ops : List FrameOp) (s : StackFrameAllocator) (live : List Nat)
    (h : runTrace (init new l r, []) ops = some (s, live)) :
    AllocatorOK s live := by
  have hI0 : InvGhost (init new l r) [] := by
    refine ⟨hlr, ?_, ?_, ?_, ?_⟩ <;> simp [init, new]
  have hI : InvGhost s live := invGhost_runTrace hI0 h
  obtain ⟨h1, h2, h3, h4, h5⟩ := hI
  refine ⟨h1, h2, h3, h4, ?_⟩
  intro p s2 hE hmem
  rcases alloc_cases s with ⟨R, a, hR, hE'⟩ | ⟨hR, hce, hE'⟩ | ⟨hR, hce, hE'⟩
  · rw [hE'] at hE
    have hpa : a = p := by
      have h9 := congrArg Prod.fst hE
      simpa using h9
    subst hpa
    exact (h5 a hmem).2 (by rw [hR]; simp)
  · rw [hE'] at hE
    have h9 := congrArg Prod.fst hE
    simp at h9
  · rw [hE'] at hE
    have hpc : s.current = p := by
      have h9 := congrArg Prod.fst hE
      simpa using h9
    rw [← hpc] at hmem
    exact absurd (h5 _ hmem).1 (lt_irrefl _)

/-- Witness for C1: a concrete trace that allocates, releases and
re-allocates inside the pool `[0, 2)`. -/
theorem frameAllocator_invariant_witness :
    (0 : Nat) ≤ 2 ∧
    AllocatorOK { current := 1, end_ := 2, recycled := [] } [0] :=
  ⟨by decide,
    frameAllocator_invariant 0 2 (by decide)
      [FrameOp.alloc, FrameOp.dealloc 0, FrameOp.alloc]
      { current := 1, end_ := 2, recycled := [] } [0] (by decide)⟩

end FrameAlloc

namespace FrameAlloc

/-- Perform `n` consecutive `alloc` calls, collecting the results. -/
def allocN (s : StackFrameAllocator) (n : Nat) :
    List (Option Nat) × StackFrameAllocator :=
  match n with
  | 0 => ([], s)
  | n + 1 =>
    let r := alloc s
    let rest := allocN r.2 n
    (r.1 :: rest.1, rest.2)

/-- Perform consecutive `dealloc` calls for the given page numbers;
`none` once any of them panics. -/
def deallocList (s : StackFrameAllocator) (ds : List Nat) :
    Option StackFrameAllocator :=
  match ds with
  | [] => some s
  | d :: rest =>
    match dealloc s d with
    | some s2 => deallocList s2 rest
    | none => none

theorem allocN_fresh (n : Nat) (s : StackFrameAllocator)
    (hrec : s.recycled = []) (hroom : s.current + n ≤ s.end_) :
    allocN s n = ((List.range' s.current n).map some,
      { s with current := s.current + n }) := by
  induction n generalizing s with
  | zero =>
    cases s
    simp [allocN]
  | succ n ih =>
    have hne : s.current ≠ s.end_ := by omega
    have hE : alloc s =
        (some s.current, { s with current := s.current + 1 }) := by
      simp [alloc, hrec, hne]
    have ih2 := ih { s with current := s.current + 1 } hrec (by simp; omega)
    simp only [allocN, hE, ih2, List.range'_succ, List.map_cons,
      Prod.mk.injEq, StackFrameAllocator.mk.injEq]
    exact ⟨trivial, by omega, trivial, trivial⟩

theorem deallocList_append (ds : List Nat) (s : StackFrameAllocator)
    (hlt : ∀ x ∈ ds, x < s.current) (hnd : (s.recycled ++ ds).Nodup) :
    deallocList s ds = some { s with recycled := s.recycled ++ ds } := by
  induction ds generalizing s with
  | nil =>
    cases s
    simp [deallocList]
  | cons d rest ih =>
    have hdmem : d ∉ s.recycled := by
      rw [List.nodup_append] at hnd
      exact fun hc => hnd.2.2 hc (by simp)
    have hdc : d < s.current := hlt d (by simp)
    have hE : dealloc s d =
        some { s with recycled := s.recycled ++ [d] } := by
      have hno : ¬(s.current ≤ d ∨ d ∈ s.recycled) := by
        push_neg
        exact ⟨by omega, hdmem⟩
      simp [dealloc, hno]
    have ih2 := ih { s with recycled := s.recycled ++ [d] }
      (fun x hx => hlt x (by simp [hx]))
      (by simpa using hnd)
    simp only [deallocList, hE, ih2]
    simp

theorem allocN_drain (R : List Nat) (s : StackFrameAllocator)
    (hrec : s.recycled = R) :
    allocN s R.length = (R.reverse.map some, { s with recycled := [] }) := by
  induction R using List.reverseRecOn generalizing s with
  | nil =>
    cases s
    subst hrec
    simp [allocN]
  | append_singleton R a ih =>
    have hE : alloc s = (some a, { s with recycled := R }) := by
      simp [alloc, hrec]
    have ih2 := ih { s with recycled := R } rfl
    simp only [List.length_append, List.length_singleton, allocN, hE, ih2]
    simp

/-- The LIFO reuse property: structural facts about a single `alloc`
(top-of-stack reuse, `current` untouched), and the round trip on a fresh
region: `N` allocations return `current, current+1, ...`; releasing them
all in order `ds` then allocating `N` more returns exactly `ds` reversed,
with no `current` advancement in the reuse phase. -/
def LifoSpec (s0 : StackFrameAllocator) (N : Nat) (ds : List Nat) : Prop :=
  (∀ t : StackFrameAllocator, t.recycled ≠ [] →
      (alloc t).1 = t.recycled.getLast? ∧ (alloc t).2.current = t.current ∧
      (alloc t).2.recycled = t.recycled.dropLast) ∧
  (allocN s0 N).1 = (List.range' s0.current N).map some ∧
  ∃ s2, deallocList (allocN s0 N).2 ds = some s2 ∧
    s2.current = s0.current + N ∧ s2.recycled = ds ∧
    (allocN s2 N).1 = ds.reverse.map some ∧
    (allocN s2 N).2.current = s2.current

/-- C2: `alloc` is a LIFO freelist: with a non-empty `recycled` it pops
and returns the most recently released index, leaving `current` unchanged;
allocating `N` fresh frames, releasing all of them (in any order `ds`),
then allocating `N` again returns the released indices in reverse release
order, with `current` never advancing during the reuse phase. -/
theorem alloc_lifo (s0 : StackFrameAllocator) (N : Nat) (ds : List Nat)
    (hrec : s0.recycled = []) (hroom : s0.current + N ≤ s0.end_)
    (hperm : ds.Perm (List.range' s0.current N)) :
    LifoSpec s0 N ds := by
  refine ⟨?_, ?_, ?_⟩
  · intro t ht
    rcases alloc_cases t with ⟨R, a, hR, hE⟩ | ⟨hR, -, -⟩ | ⟨hR, -, -⟩
    · rw [hE, hR]
      simp [List.getLast?_concat]
    · exact absurd hR ht
    · exact absurd hR ht
  · rw [allocN_fresh N s0 hrec hroom]
  · rw [allocN_fresh N s0 hrec hroom]
    have hlen : ds.length = N := by
      have := hperm.length_eq
      simpa using this
    have hnd : ds.Nodup := hperm.symm.nodup (List.nodup_range' _ _)
    have hlt : ∀ x ∈ ds, x < s0.current + N := by
      intro x hx
      have hx2 := hperm.mem_iff.mp hx
      exact (List.mem_range'_1.mp hx2).2
    refine ⟨{ current := s0.current + N, end_ := s0.end_, recycled := ds },
      ?_, rfl, rfl, ?_, ?_⟩
    · have h := deallocList_append ds
        { s0 with current := s0.current + N } hlt (by simpa [hrec] using hnd)
      rw [h]
      simp [hrec]
    · have h := allocN_drain ds
        { current := s0.current + N, end_ := s0.end_, recycled := ds } rfl
      rw [hlen] at h
      rw [h]
    · have h := allocN_drain ds
        { current := s0.current + N, end_ := s0.end_, recycled := ds } rfl
      rw [hlen] at h
      rw [h]

/-- Witness for C2: pool `[0, 3)`, allocate 2 (yields `0, 1`), release in
order `1, 0`, re-allocate 2 (yields `0, 1` = reverse of release order). -/
theorem alloc_lifo_witness :
    (({ current := 0, end_ := 3, recycled := [] } :
        StackFrameAllocator).recycled = [] ∧
      (0 : Nat) + 2 ≤ 3 ∧ List.Perm [1, 0] (List.range' 0 2)) ∧
    LifoSpec { current := 0, end_ := 3, recycled := [] } 2 [1, 0] :=
  ⟨⟨by decide, by decide, by decide⟩,
    alloc_lifo { current := 0, end_ := 3, recycled := [] } 2 [1, 0]
      (by decide) (by decide) (by decide)⟩

end FrameAlloc

namespace FrameAlloc

/-- Bytes per physical page (`PAGE_SIZE`). -/
def PAGE_SIZE : Nat := 4096

/-- Embedding of `FrameTracker`: owns one physical page number. -/
structure FrameTracker where
  ppn : Nat
deriving Repr, DecidableEq

/-- Physical memory, as a map from page number and byte offset to byte. -/
def Mem : Type := Nat → Nat → Nat

/-- Embedding of the page-cleaning loop of `FrameTracker::new`:
`for i in bytes_array { *i = 0 }`, one store per byte offset of the page. -/
def zeroPage (mem : Mem) (ppn : Nat) : Mem :=
  (List.range PAGE_SIZE).foldl
    (fun m i => fun p j => if p = ppn ∧ j = i then 0 else m p j) mem

/-- Embedding of `FrameTracker::new`: zero the backing page, then wrap it. -/
def frameTrackerNew (mem : Mem) (ppn : Nat) : FrameTracker × Mem :=
  ({ ppn := ppn }, zeroPage mem ppn)

/-- Embedding of `frame_alloc`: `FRAME_ALLOCATOR …​.alloc().map(FrameTracker::new)`. -/
def frame_alloc (s : StackFrameAllocator) (mem : Mem) :
    Option FrameTracker × StackFrameAllocator × Mem :=
  match alloc s with
  | (some p, s2) =>
    let r := frameTrackerNew mem p
    (some r.1, s2, r.2)
  | (none, s2) => (none, s2, mem)

theorem zeroPage_foldl (l : List Nat) (mem : Mem) (ppn p j : Nat) :
    (l.foldl (fun m i => fun q k => if q = ppn ∧ k = i then 0 else m q k)
        mem) p j =
      if p = ppn ∧ j ∈ l then 0 else mem p j := by
  induction l generalizing mem with
  | nil => simp
  | cons i rest ih =>
    simp only [List.foldl_cons, ih, List.mem_cons]
    by_cases hp : p = ppn
    · by_cases hji : j = i
      · simp [hp, hji]
      · by_cases hjr : j ∈ rest
        · simp [hp, hji, hjr]
        · simp [hp, hji, hjr]
    · simp [hp]

theorem zeroPage_spec (mem : Mem) (ppn j : Nat) (hj : j < PAGE_SIZE) :
    zeroPage mem ppn ppn j = 0 := by
  have h := zeroPage_foldl (List.range PAGE_SIZE) mem ppn ppn j
  simp [List.mem_range, hj] at h
  exact h

theorem frame_alloc_of_some (s : StackFrameAllocator) (mem : Mem)
    (p : Nat) (s2 : StackFrameAllocator) (hE : alloc s = (some p, s2)) :
    frame_alloc s mem = (some { ppn := p }, s2, zeroPage mem p) := by
  unfold frame_alloc
  rw [hE]
  simp only [frameTrackerNew]

theorem frame_alloc_of_none (s : StackFrameAllocator) (mem : Mem)
    (s2 : StackFrameAllocator) (hE : alloc s = (none, s2)) :
    frame_alloc s mem = (none, s2, mem) := by
  unfold frame_alloc
  rw [hE]

/-- C5: whenever `frame_alloc` succeeds, every byte of the returned
tracker's backing page is zero in the resulting memory, regardless of the
previous contents of memory. -/
theorem frame_alloc_zeroed (s : StackFrameAllocator) (mem : Mem)
    (ft : FrameTracker) (h : (frame_alloc s mem).1 = some ft)
    (j : Nat) (hj : j < PAGE_SIZE) :
    (frame_alloc s mem).2.2 ft.ppn j = 0 := by
  rcases hE : alloc s with ⟨r, s2⟩
  cases r with
  | none =>
    rw [frame_alloc_of_none s mem s2 hE] at h
    exact Option.noConfusion h
  | some p =>
    rw [frame_alloc_of_some s mem p s2 hE] at h ⊢
    have hft : ft = { ppn := p } := (Option.some.inj h).symm
    subst hft
    have hz := zeroPage_spec mem p j hj
    simpa using hz

/-- Witness for C5: allocating from `⟨0, 1, []⟩` over memory that is all
sevens returns page 0, whose byte 5 reads zero afterwards. -/
theorem frame_alloc_zeroed_witness :
    ((frame_alloc { current := 0, end_ := 1, recycled := [] }
        (fun _ _ => 7)).1 = some { ppn := 0 } ∧ 5 < PAGE_SIZE) ∧
    (frame_alloc { current := 0, end_ := 1, recycled := [] }
        (fun _ _ => 7)).2.2 0 5 = 0 :=
  ⟨⟨rfl, by decide⟩,
    frame_alloc_zeroed { current := 0, end_ := 1, recycled := [] }
      (fun _ _ => 7) { ppn := 0 } rfl 5 (by decide)⟩

end FrameAlloc

namespace Loader

/-- Constant `APP_BASE_ADDRESS` of `loader.rs`. -/
def APP_BASE_ADDRESS : Nat := 0x80400000

/-- Constant `APP_SIZE_LIMIT` of `loader.rs`. -/
def APP_SIZE_LIMIT : Nat := 0x20000

/-- Constant `MAX_APP_NUM` of `loader.rs`. -/
def MAX_APP_NUM : Nat := 16

/-- Embedding of `get_base_i`: fixed base address of application slot `i`. -/
def get_base_i (app_id : Nat) : Nat :=
  APP_BASE_ADDRESS + app_id * APP_SIZE_LIMIT

/-- Byte-addressed physical memory, as a map from address to byte. -/
def AddrMem : Type := Nat → Nat

/-- Embedding of the clearing loop of `load_app`:
`(base_i..base_i + APP_SIZE_LIMIT).for_each(|addr| write_volatile(0))`,
one zero store per address of the region. -/
def clearRegion (mem : AddrMem) (base len : Nat) : AddrMem :=
  (List.range' base len).foldl
    (fun m addr => fun a => if a = addr then 0 else m a) mem

/-- Embedding of `dst.copy_from_slice(src)`: store the source bytes at
consecutive addresses starting at `base`. -/
def writeBytes (mem : AddrMem) (base : Nat) (src : List Nat) : AddrMem :=
  match src with
  | [] => mem
  | b :: rest => writeBytes (fun a => if a = base then b else mem a) (base + 1) rest

/-- One iteration of the `load_app` loop for application `i` with image
bytes `img`: clear the whole `APP_SIZE_LIMIT` region at `get_base_i i`,
then copy the image bytes to that base. -/
def load_one (mem : AddrMem) (i : Nat) (img : List Nat) : AddrMem :=
  writeBytes (clearRegion mem (get_base_i i) APP_SIZE_LIMIT) (get_base_i i) img

/-- The `for i in 0..num_app` loop of `AppManager::load_app`, started at
slot index `i0`; the images are the byte slices
`app_start[i] .. app_start[i+1]` of the embedded application data. -/
def load_app_from (mem : AddrMem) (i0 : Nat) (apps : List (List Nat)) :
    AddrMem :=
  match apps with
  | [] => mem
  | img :: rest => load_app_from (load_one mem i0 img) (i0 + 1) rest

/-- Embedding of `AppManager::load_app` (the memory effect of loading all
`num_app = apps.length` application images). -/
def load_app (mem : AddrMem) (apps : List (List Nat)) : AddrMem :=
  load_app_from mem 0 apps

theorem clearRegion_foldl (l : List Nat) (mem : AddrMem) (a : Nat) :
    (l.foldl (fun m addr => fun x => if x = addr then 0 else m x) mem) a =
      if a ∈ l then 0 else mem a := by
  induction l generalizing mem with
  | nil => simp
  | cons addr rest ih =>
    simp only [List.foldl_cons, ih, List.mem_cons]
    by_cases ha : a = addr
    · by_cases har : a ∈ rest <;> simp [ha, har]
    · by_cases har : a ∈ rest <;> simp [ha, har]

theorem clearRegion_spec (mem : AddrMem) (base len a : Nat) :
    clearRegion mem base len a =
      if base ≤ a ∧ a < base + len then 0 else mem a := by
  have h := clearRegion_foldl (List.range' base len) mem a
  simp only [List.mem_range'_1] at h
  exact h

theorem writeBytes_spec (src : List Nat) (mem : AddrMem) (base a : Nat) :
    writeBytes mem base src a =
      if base ≤ a ∧ a < base + src.length then src.getD (a - base) 0
      else mem a := by
  induction src generalizing mem base with
  | nil =>
    simp only [writeBytes, List.length_nil, Nat.add_zero]
    rw [if_neg (by omega)]
  | cons b rest ih =>
    simp only [writeBytes, ih, List.length_cons]
    by_cases h1 : base + 1 ≤ a ∧ a < base + 1 + rest.length
    · have h2 : base ≤ a ∧ a < base + (rest.length + 1) := by omega
      simp only [if_pos h1, if_pos h2]
      have hd : a - base = (a - (base + 1)) + 1 := by omega
      rw [hd, List.getD_cons_succ]
    · by_cases h2 : a = base
      · subst h2
        have h3 : a ≤ a ∧ a < a + (rest.length + 1) := by omega
        simp only [if_neg h1, if_pos h3, Nat.sub_self, List.getD_cons_zero]
        simp
      · have h3 : ¬(base ≤ a ∧ a < base + (rest.length + 1)) := by omega
        simp [h1, h2, h3]

theorem get_base_i_succ (i : Nat) :
    get_base_i i + APP_SIZE_LIMIT = get_base_i (i + 1) := by
  unfold get_base_i APP_SIZE_LIMIT APP_BASE_ADDRESS
  omega

theorem get_base_i_lt (i : Nat) : get_base_i i < get_base_i (i + 1) := by
  unfold get_base_i APP_SIZE_LIMIT APP_BASE_ADDRESS
  omega

theorem load_one_frame_low (mem : AddrMem) (i : Nat) (img : List Nat)
    (a : Nat) (ha : a < get_base_i i) :
    load_one mem i img a = mem a := by
  unfold load_one
  rw [writeBytes_spec, clearRegion_spec]
  have h1 : ¬(get_base_i i ≤ a ∧ a < get_base_i i + img.length) := by omega
  have h2 : ¬(get_base_i i ≤ a ∧ a < get_base_i i + APP_SIZE_LIMIT) := by
    omega
  simp [h1, h2]

theorem load_app_from_frame_low (apps : List (List Nat))
    (i0 : Nat) (mem : AddrMem) (a : Nat) (ha : a < get_base_i i0) :
    load_app_from mem i0 apps a = mem a := by
  induction apps generalizing i0 mem with
  | nil => rfl
  | cons img rest ih =>
    have h1 : load_app_from mem i0 (img :: rest) =
        load_app_from (load_one mem i0 img) (i0 + 1) rest := rfl
    rw [h1, ih (i0 + 1) _ (lt_trans ha (get_base_i_lt i0))]
    exact load_one_frame_low mem i0 img a ha

end Loader

namespace Loader

theorem load_app_from_spec (apps : List (List Nat))
    (hlen : ∀ img ∈ apps, img.length ≤ APP_SIZE_LIMIT)
    (i0 i : Nat) (hi : i < apps.length) (mem : AddrMem) :
    (∀ k, k < (apps.getD i []).length →
      load_app_from mem i0 apps (get_base_i (i0 + i) + k) =
        (apps.getD i []).getD k 0) ∧
    (∀ k, (apps.getD i []).length ≤ k → k < APP_SIZE_LIMIT →
      load_app_from mem i0 apps (get_base_i (i0 + i) + k) = 0) := by
  induction apps generalizing i0 i mem with
  | nil => simp at hi
  | cons img rest ih =>
    have h1 : ∀ m, load_app_from m i0 (img :: rest) =
        load_app_from (load_one m i0 img) (i0 + 1) rest := fun m => rfl
    cases i with
    | zero =>
      simp only [Nat.add_zero, List.getD_cons_zero]
      constructor
      · intro k hk
        have hkL : k < APP_SIZE_LIMIT := lt_of_lt_of_le hk (hlen img (by simp))
        rw [h1, load_app_from_frame_low rest (i0 + 1) _ _
          (by rw [← get_base_i_succ]; omega)]
        unfold load_one
        rw [writeBytes_spec, if_pos (by constructor <;> omega)]
        have hsub : get_base_i i0 + k - get_base_i i0 = k := by omega
        rw [hsub]
      · intro k hk1 hk2
        rw [h1, load_app_from_frame_low rest (i0 + 1) _ _
          (by rw [← get_base_i_succ]; omega)]
        unfold load_one
        rw [writeBytes_spec, if_neg (by omega), clearRegion_spec,
          if_pos (by constructor <;> omega)]
    | succ i2 =>
      have hidx : i0 + (i2 + 1) = (i0 + 1) + i2 := by omega
      simp only [List.getD_cons_succ, hidx, h1]
      exact ih (fun x hx => hlen x (by simp [hx])) (i0 + 1) i2
        (by simpa using hi) _

/-- C6: `get_base_i i = APP_BASE_ADDRESS + i * APP_SIZE_LIMIT`, and after
`load_app`, for every application index `i < num_app`: the bytes at
`base(i) .. base(i)+len(i)` equal the bytes of image `i`, and the bytes
from `len(i)` up to `APP_SIZE_LIMIT` at that base are all zero (the region
is zero-filled before the copy). -/
theorem load_app_spec (apps : List (List Nat))
    (hlen : ∀ img ∈ apps, img.length ≤ APP_SIZE_LIMIT)
    (i : Nat) (hi : i < apps.length) (mem : AddrMem) :
    get_base_i i = APP_BASE_ADDRESS + i * APP_SIZE_LIMIT ∧
    (∀ k, k < (apps.getD i []).length →
      load_app mem apps (get_base_i i + k) = (apps.getD i []).getD k 0) ∧
    (∀ k, (apps.getD i []).length ≤ k → k < APP_SIZE_LIMIT →
      load_app mem apps (get_base_i i + k) = 0) := by
  have h := load_app_from_spec apps hlen 0 i hi mem
  simp only [Nat.zero_add] at h
  exact ⟨rfl, h.1, h.2⟩

/-- Witness for C6: two images `[1, 2]` and `[3]`; at slot 1, byte 0
reads `3` and bytes `1 ≤ k < APP_SIZE_LIMIT` read zero after loading. -/
theorem load_app_spec_witness :
    ((∀ img ∈ [[1, 2], [3]], List.length img ≤ APP_SIZE_LIMIT) ∧ 1 < 2) ∧
    (get_base_i 1 = APP_BASE_ADDRESS + 1 * APP_SIZE_LIMIT ∧
      (∀ k, k < ([[1, 2], [3]].getD 1 []).length →
        load_app (fun _ => 9) [[1, 2], [3]] (get_base_i 1 + k) =
          ([[1, 2], [3]].getD 1 []).getD k 0) ∧
      (∀ k, ([[1, 2], [3]].getD 1 []).length ≤ k → k < APP_SIZE_LIMIT →
        load_app (fun _ => 9) [[1, 2], [3]] (get_base_i 1 + k) = 0)) :=
  ⟨⟨by decide, by decide⟩,
    load_app_spec [[1, 2], [3]] (by decide) 1 (by decide) (fun _ => 9)⟩

end Loader

namespace Loader

/-- Embedding of `AppManager`: number of discovered applications, the
current-application cursor, and the `app_start` table. -/
structure AppManager where
  num_app : Nat
  current_app : Nat
  app_start : List Nat
deriving Repr, DecidableEq

/-- Embedding of `AppManager::get_current_app`. -/
def get_current_app (m : AppManager) : Nat := m.current_app

/-- Embedding of `AppManager::move_to_next_app`: `current_app += 1`,
unconditionally — there is no comparison against `num_app`. -/
def move_to_next_app (m : AppManager) : AppManager :=
  { m with current_app := m.current_app + 1 }

/-- The control transfer a call of `run_next_app` performs.
`restore app_id` is `__restore(init_app_cx(app_id))`: the mode switch into
the slot of application `app_id` (whose entry point is
`get_base_i app_id`); `__restore` does not return.  `halt` stands for an
explicit terminal halt-and-report path; no branch of the source produces
it. -/
inductive KernelFlow where
  | restore : Nat → KernelFlow
  | halt : KernelFlow
deriving Repr, DecidableEq

/-- Embedding of `run_next_app`: read the cursor, advance it by one, then
unconditionally `__restore(init_app_cx(current_app + 1))` where
`current_app` is the value read before the advance. -/
def run_next_app (m : AppManager) : KernelFlow × AppManager :=
  let current_app := get_current_app m
  let m2 := move_to_next_app m
  (KernelFlow.restore (current_app + 1), m2)

/-- C7: `run_next_app` contains no bound check at all: for every manager
state — in particular when the cursor has passed the last application
(`current_app = num_app`) — it performs the mode switch
`restore (current_app + 1)` and never reaches a halt-and-report path; with
no application left it switches into slot `num_app + 1`, beyond the loaded
applications. -/
theorem run_next_app_never_halts (n c : Nat) (as : List Nat) :
    (run_next_app { num_app := n, current_app := c, app_start := as }).1 =
      KernelFlow.restore (c + 1) ∧
    (run_next_app { num_app := n, current_app := n, app_start := as }).1 ≠
      KernelFlow.halt ∧
    (run_next_app { num_app := n, current_app := n, app_start := as }).1 =
      KernelFlow.restore (n + 1) := by
  refine ⟨rfl, ?_, rfl⟩
  intro h
  exact KernelFlow.noConfusion h

/-- Counterexample for C8: from the freshly constructed manager
(`current_app = 0`), the first invocation of `run_next_app` performs the
mode switch with `init_app_cx(1)`, not with `init_app_cx(0)`: application
index 0 is skipped. -/
theorem run_next_app_first_call_not_app0 :
    (run_next_app { num_app := 3, current_app := 0, app_start := [] }).1 ≠
      KernelFlow.restore 0 ∧
    (run_next_app { num_app := 3, current_app := 0, app_start := [] }).1 =
      KernelFlow.restore 1 := by
  constructor
  · intro h
    simp [run_next_app, get_current_app, move_to_next_app] at h
  · rfl

/-- Iterate `run_next_app` from a manager state, keeping only the state. -/
def runN (m : AppManager) : Nat → AppManager
  | 0 => m
  | k + 1 => (run_next_app (runN m k)).2

/-- C8 (amended): the cursor starts at 0 and advances by exactly 1 on each
call of `run_next_app`; each call performs the mode switch using
`init_app_cx` of the new cursor value (= old cursor + 1).  Hence the k-th
invocation (counting from 1) starts application index k: applications
1, 2, ... are each started exactly once in increasing order, and no call
ever starts application index 0. -/
theorem run_next_app_cursor (m0 : AppManager) (h0 : m0.current_app = 0)
    (k : Nat) :
    (runN m0 k).current_app = k ∧
    (run_next_app (runN m0 k)).1 = KernelFlow.restore (k + 1) ∧
    (run_next_app (runN m0 k)).2.current_app = k + 1 ∧
    (run_next_app (runN m0 k)).1 ≠ KernelFlow.restore 0 := by
  have hcur : ∀ j, (runN m0 j).current_app = j := by
    intro j
    induction j with
    | zero => exact h0
    | succ j ih =>
      show (run_next_app (runN m0 j)).2.current_app = j + 1
      simp only [run_next_app, get_current_app, move_to_next_app, ih]
  refine ⟨hcur k, ?_, ?_, ?_⟩
  · simp only [run_next_app, get_current_app, move_to_next_app, hcur k]
  · simp only [run_next_app, get_current_app, move_to_next_app, hcur k]
  · simp only [run_next_app, get_current_app, move_to_next_app, hcur k]
    intro h
    exact Nat.noConfusion (KernelFlow.restore.inj h)

/-- Witness for C8 (amended): from `current_app = 0`, after two calls the
cursor is 2 and the third call switches into application slot 3. -/
theorem run_next_app_cursor_witness :
    ({ num_app := 3, current_app := 0, app_start := [] } :
        AppManager).current_app = 0 ∧
    ((runN { num_app := 3, current_app := 0, app_start := [] } 2).current_app
        = 2 ∧
      (run_next_app
          (runN { num_app := 3, current_app := 0, app_start := [] } 2)).1 =
        KernelFlow.restore 3 ∧
      (run_next_app
          (runN { num_app := 3, current_app := 0, app_start := [] } 2)).2.current_app
        = 3 ∧
      (run_next_app
          (runN { num_app := 3, current_app := 0, app_start := [] } 2)).1 ≠
        KernelFlow.restore 0) :=
  ⟨rfl, run_next_app_cursor
    { num_app := 3, current_app := 0, app_start := [] } rfl 2⟩

/-- Observable actions of `AppManager::load_app`, in program order. -/
inductive LoadEvent where
  | fence : LoadEvent
  | clear : Nat → LoadEvent
  | copy : Nat → LoadEvent
deriving Repr, DecidableEq

/-- The sequence of actions `load_app` performs: first the `fence.i`
instruction-cache flush (under the comment `clear i-cache first`), then,
for each application index in order, the region clear and the image copy. -/
def load_app_events (num_app : Nat) : List LoadEvent :=
  LoadEvent.fence ::
    (List.range num_app).flatMap (fun i => [LoadEvent.clear i, LoadEvent.copy i])

/-- C9 evaluation: with two applications, `load_app` issues `fence.i`
strictly before every copy (it is the very first action), not after the
copies as the specification requires. -/
theorem load_app_fence_before_copies :
    load_app_events 2 =
      [LoadEvent.fence, LoadEvent.clear 0, LoadEvent.copy 0,
        LoadEvent.clear 1, LoadEvent.copy 1] ∧
    (load_app_events 2).head? = some LoadEvent.fence ∧
    LoadEvent.fence ∉ (load_app_events 2).tail := by
  refine ⟨by rfl, by rfl, by decide⟩

end Loader
